import Mathlib

/-!
Verification of the 1BRC pipeline (src/main.ts, src/worker.ts).

Shallow embedding conventions:
* The input file is a `List ℕ` of bytes (each < 256 in practice; the model
  does not need the bound).  The newline byte is 10, the semicolon 59.
* JavaScript numbers are modelled exactly: integer-valued quantities
  (byte offsets, counts) as `ℤ`/`ℕ`, temperature values as `ℚ`
  (the source performs `+`, `*`, `/` on IEEE doubles; the rational model
  is the exact-arithmetic idealisation of those operations).
* JavaScript strings are modelled as lists of UTF-16 code units
  (`List ℕ`); `Buffer.toString('utf8')` is modelled by decoding UTF-8 to
  code points and re-encoding to UTF-16 units, and the default
  `Array.prototype.sort()` comparator is lexicographic order on the code
  unit lists, exactly as in JS.
* `Map<string, StationStats>` is an insertion-ordered association list;
  `set` of a fresh key appends, `set`/field mutation of a present key
  updates it in place.
* The only fallible step is `createReadStream(path, {start, end})`,
  which raises `ERR_OUT_OF_RANGE` when `end < 0` or `start > end`; the
  orchestrator is therefore an `Except`.
-/

namespace OneBRC

/-- Inclusive byte range `{start, end}` from `createChunks` in src/main.ts.
`end` is a Lean keyword, so the field is called `stop` here. -/
structure ByteRange where
  start : ℤ
  stop : ℤ
deriving DecidableEq, Repr

instance : Inhabited ByteRange := ⟨⟨0, 0⟩⟩

/-- Per-station running statistics, `StationStats` in the source:
`{sum, cnt, min, max}`. -/
structure StationStats where
  sum : ℚ
  cnt : ℕ
  min : ℚ
  max : ℚ
deriving DecidableEq, Repr

instance : Inhabited StationStats := ⟨⟨0, 0, 0, 0⟩⟩

/-- Insertion-ordered association list modelling `Map<string, StationStats>`.
Keys are JS strings, i.e. lists of UTF-16 code units. -/
abbrev StatsMap := List (List ℕ × StationStats)

/-- UTF-16 code units of a Lean string literal (all our literals are
surrogate-free, so `Char.toNat` of each character is its code unit). -/
def unitsOf (s : String) : List ℕ := s.toList.map Char.toNat

/-- WHATWG-style UTF-8 decoding to a list of code points, as performed by
Node's `buffer.toString('utf8')`: well-formed sequences decode to their
code point, malformed bytes decode to U+FFFD.  The fuel argument only
bounds the recursion; every call consumes at least one byte, so
`fuel = length + 1` suffices (see `utf8Decode`). -/
def utf8DecodeAux : ℕ → List ℕ → List ℕ
  | 0, _ => []
  | _, [] => []
  | fuel + 1, b1 :: rest =>
    if b1 < 0x80 then b1 :: utf8DecodeAux fuel rest
    else if 0xC2 ≤ b1 ∧ b1 ≤ 0xDF then
      match rest with
      | b2 :: rest2 =>
        if 0x80 ≤ b2 ∧ b2 ≤ 0xBF then ((b1 - 0xC0) * 0x40 + (b2 - 0x80)) :: utf8DecodeAux fuel rest2
        else 0xFFFD :: utf8DecodeAux fuel rest
      | [] => [0xFFFD]
    else if 0xE0 ≤ b1 ∧ b1 ≤ 0xEF then
      match rest with
      | b2 :: rest2 =>
        if (if b1 = 0xE0 then 0xA0 ≤ b2 ∧ b2 ≤ 0xBF
            else if b1 = 0xED then 0x80 ≤ b2 ∧ b2 ≤ 0x9F
            else 0x80 ≤ b2 ∧ b2 ≤ 0xBF) then
          match rest2 with
          | b3 :: rest3 =>
            if 0x80 ≤ b3 ∧ b3 ≤ 0xBF then
              ((b1 - 0xE0) * 0x1000 + (b2 - 0x80) * 0x40 + (b3 - 0x80)) :: utf8DecodeAux fuel rest3
            else 0xFFFD :: utf8DecodeAux fuel rest2
          | [] => [0xFFFD]
        else 0xFFFD :: utf8DecodeAux fuel rest
      | [] => [0xFFFD]
    else if 0xF0 ≤ b1 ∧ b1 ≤ 0xF4 then
      match rest with
      | b2 :: rest2 =>
        if (if b1 = 0xF0 then 0x90 ≤ b2 ∧ b2 ≤ 0xBF
            else if b1 = 0xF4 then 0x80 ≤ b2 ∧ b2 ≤ 0x8F
            else 0x80 ≤ b2 ∧ b2 ≤ 0xBF) then
          match rest2 with
          | b3 :: rest3 =>
            if 0x80 ≤ b3 ∧ b3 ≤ 0xBF then
              match rest3 with
              | b4 :: rest4 =>
                if 0x80 ≤ b4 ∧ b4 ≤ 0xBF then
                  ((b1 - 0xF0) * 0x40000 + (b2 - 0x80) * 0x1000 + (b3 - 0x80) * 0x40 + (b4 - 0x80))
                    :: utf8DecodeAux fuel rest4
                else 0xFFFD :: utf8DecodeAux fuel rest3
              | [] => [0xFFFD]
            else 0xFFFD :: utf8DecodeAux fuel rest2
          | [] => [0xFFFD]
        else 0xFFFD :: utf8DecodeAux fuel rest
      | [] => [0xFFFD]
    else 0xFFFD :: utf8DecodeAux fuel rest

/-- UTF-8 decoding with sufficient fuel. -/
def utf8Decode (bytes : List ℕ) : List ℕ := utf8DecodeAux (bytes.length + 1) bytes

/-- UTF-16 encoding of one code point (surrogate pair above U+FFFF). -/
def cpToUnits (cp : ℕ) : List ℕ :=
  if cp < 0x10000 then [cp]
  else [0xD800 + (cp - 0x10000) / 0x400, 0xDC00 + (cp - 0x10000) % 0x400]

/-- The JS string obtained from `buffer.toString('utf8', ..)` on the given
bytes, as a list of UTF-16 code units. -/
def jsStringOfBytes (bytes : List ℕ) : List ℕ := (utf8Decode bytes).flatMap cpToUnits

/-! ### Byte scanner (`getPreviousNewlinePosition`, src/main.ts lines 24-51) -/

/-- The 1 MiB read window used by the scanner (`CHUNK_SIZE`). -/
def CHUNK_SIZE : ℤ := 1024 * 1024

/-- Index of the last newline byte in `file[s .. s+len)`, or `none`.
This is the backward `for` loop over the read buffer: `BUFFER[i]` holds
`file[searchStartByte + i]` for `i < bytesRead`. -/
def findLastNL (file : List ℕ) (s : ℕ) : ℕ → Option ℕ
  | 0 => none
  | len + 1 => if file.getD (s + len) 0 = 10 then some (s + len) else findLastNL file s len

/-- Number of bytes `fs.readSync` returns when reading `CHUNK_SIZE` bytes
at offset `searchStart` of the file. -/
def readLen (file : List ℕ) (searchStart : ℤ) : ℤ :=
  if searchStart < (file.length : ℤ) then min CHUNK_SIZE ((file.length : ℤ) - searchStart) else 0

/-- One `while (searchEndByte > 0)` iteration of
`getPreviousNewlinePosition`, with an explicit fuel bound.  Each
iteration moves `searchEnd` down by `CHUNK_SIZE ≥ 1`, so `searchEnd.toNat + 1`
units of fuel always suffice (`getPreviousNewlinePosition_fuel` below);
exhausted fuel returns the loop's fall-through value `-1`. -/
def gpnlAux (file : List ℕ) : ℕ → ℤ → ℤ
  | 0, _ => -1
  | fuel + 1, searchEnd =>
    if searchEnd > 0 then
      let searchStart := max 0 (searchEnd - CHUNK_SIZE)
      let bytesRead := readLen file searchStart
      if bytesRead = 0 then -1
      else
        match findLastNL file searchStart.toNat bytesRead.toNat with
        | some p => (p : ℤ)
        | none => gpnlAux file fuel searchStart
    else -1

/-- Model of `getPreviousNewlinePosition(startingByteOffset, fd)` of src/main.ts.
Note that the first iteration reads a full `CHUNK_SIZE` bytes starting at
`max(0, startingByteOffset - CHUNK_SIZE)`, so for offsets below 1 MiB the
scanned window extends *past* the starting offset (up to the first MiB of
the file), and the function returns the last newline of that window. -/
def getPreviousNewlinePosition (file : List ℕ) (startingByteOffset : ℤ) : ℤ :=
  gpnlAux file (startingByteOffset.toNat + 1) startingByteOffset

/-! ### Partitioner (`createChunks`, src/main.ts lines 57-108) -/

/-- Value of `currentChunkLastByte` for the loop iteration with `remaining` more
iterations after this one (`remaining = 0` is `isLastChunk`): the last
chunk ends at `FILE_SIZE - 1`; other chunks end at the newline the
backward scan finds from the tentative position
`cursor + approxChunkSize - 1`, or at `FILE_SIZE - 1` when the scan
returns `-1`. -/
def chunkEnd (file : List ℕ) (approx : ℤ) (remaining : ℕ) (cursor : ℤ) : ℤ :=
  if remaining = 0 then (file.length : ℤ) - 1
  else if getPreviousNewlinePosition file (cursor + approx - 1) = -1 then (file.length : ℤ) - 1
  else getPreviousNewlinePosition file (cursor + approx - 1)

/-- The `for (let i = 0; i < cpuCount; i++)` loop of `createChunks`,
reparameterised by `remaining = cpuCount - i` (so the `remaining = 1`
iteration is `isLastChunk`), which makes the recursion structural.
`cursor` is the start of the next chunk; the loop breaks after pushing a
chunk whose `end + 1 ≥ FILE_SIZE`. -/
def chunksLoop (file : List ℕ) (approx : ℤ) : ℕ → ℤ → List ByteRange
  | 0, _ => []
  | remaining + 1, cursor =>
    let e := chunkEnd file approx remaining cursor
    if e + 1 ≥ (file.length : ℤ) then [⟨cursor, e⟩]
    else ⟨cursor, e⟩ :: chunksLoop file approx remaining (e + 1)

/-- Model of `createChunks(filePath, cpuCount)` of src/main.ts: `approxChunkSize`
is `Math.floor(FILE_SIZE / cpuCount)` (exact for the non-negative
integers involved; the source is only invoked with `cpuCount ≥ 1`). -/
def createChunks (file : List ℕ) (cpuCount : ℕ) : List ByteRange :=
  chunksLoop file ((file.length : ℤ) / (cpuCount : ℤ)) cpuCount 0

/-! ### Worker: line parsing and aggregation (src/worker.ts) -/

/-- The digit/decimal-point accumulation loop of `processLineFromBuffer`
(src/worker.ts lines 158-176).  State: `temperature`, `hasDecimal`,
`decimalDivisor`.  Non-digit bytes other than `.` are ignored, a second
`.` merely re-sets `hasDecimal`. -/
def tempLoop : List ℕ → ℚ → Bool → ℚ → ℚ
  | [], t, _, _ => t
  | b :: r, t, hasDec, dv =>
    if 48 ≤ b ∧ b ≤ 57 then
      if hasDec then tempLoop r (t + ((b - 48 : ℕ) : ℚ) / (dv * 10)) hasDec (dv * 10)
      else tempLoop r (t * 10 + ((b - 48 : ℕ) : ℚ)) hasDec dv
    else if b = 46 then tempLoop r t true dv
    else tempLoop r t hasDec dv

/-- Temperature decoding of `processLineFromBuffer` applied to the bytes
after the semicolon: a leading `-` sets `isNegative`, then the
accumulation loop runs, and the result is negated if negative. -/
def parseTemperature (vb : List ℕ) : ℚ :=
  match vb with
  | 45 :: rest => -(tempLoop rest 0 false 1)
  | _ => tempLoop vb 0 false 1

/-- Model of `Map.get(station)` on the association list: the entry of the (unique)
matching key, if any. -/
def statsLookup : StatsMap → List ℕ → Option StationStats
  | [], _ => none
  | e :: t, k => if e.1 = k then some e.2 else statsLookup t k

/-- Statistics update of `processLineFromBuffer` (src/worker.ts lines
185-205): insert `{sum: t, cnt: 1, min: t, max: t}` for a fresh station,
otherwise add to `sum`, bump `cnt`, and compare-and-set `min`/`max`. -/
def updateStats (station : List ℕ) (t : ℚ) (m : StatsMap) : StatsMap :=
  match statsLookup m station with
  | none => m ++ [(station, ⟨t, 1, t, t⟩)]
  | some _ =>
      m.map fun e =>
        if e.1 = station then
          (e.1, ⟨e.2.sum + t, e.2.cnt + 1,
                 if t < e.2.min then t else e.2.min,
                 if t > e.2.max then t else e.2.max⟩)
        else e

/-- The semicolon scan of `processLineFromBuffer` (src/worker.ts lines
118-125): index of the first byte 59 in the line, or `none`. -/
def semiIdx : List ℕ → Option ℕ
  | [] => none
  | b :: r => if b = 59 then some 0 else (semiIdx r).map (· + 1)

/-- Model of `processLineFromBuffer(buffer, start, length, stats)` on the bytes of
one line: find the first semicolon; if none, return unchanged (invalid
line); otherwise the station is the UTF-8 decode of the bytes before it
and the temperature is decoded from the bytes after it. -/
def processLineFromBuffer (line : List ℕ) (m : StatsMap) : StatsMap :=
  match semiIdx line with
  | none => m
  | some i => updateStats (jsStringOfBytes (line.take i)) (parseTemperature (line.drop (i + 1))) m

/-- Worker loop state: the stats map, `rowsProcessed`, and the pending
partial line (the bytes after the last newline seen so far, i.e. the
carried `buffer` remainder of src/worker.ts lines 63-68). -/
structure WorkerState where
  stats : StatsMap
  rows : ℕ
  cur : List ℕ
deriving DecidableEq

/-- Processing of one streamed byte by the line-splitting loop of
`processFileChunk` (src/worker.ts lines 46-61): a newline flushes the
pending line (if non-empty) through `processLineFromBuffer` and bumps
`rowsProcessed`; any other byte is appended to the pending line.
Chunk boundaries of the read stream are invisible to this per-byte
formulation: the source concatenates the carried remainder with the next
chunk and rescans, which processes exactly the same lines. -/
def stepByte (st : WorkerState) (b : ℕ) : WorkerState :=
  if b = 10 then
    if st.cur ≠ [] then ⟨processLineFromBuffer st.cur st.stats, st.rows + 1, []⟩
    else ⟨st.stats, st.rows, []⟩
  else ⟨st.stats, st.rows, st.cur ++ [b]⟩

/-- The full line-splitting loop over a list of bytes. -/
def runBytes (st : WorkerState) (bytes : List ℕ) : WorkerState := bytes.foldl stepByte st

/-- The flush after the stream ends (src/worker.ts lines 71-75): process
the final line if the remainder buffer is non-empty. -/
def finishChunk (st : WorkerState) : WorkerState :=
  if st.cur ≠ [] then ⟨processLineFromBuffer st.cur st.stats, st.rows + 1, []⟩ else st

/-- The bytes `[start, end]` (inclusive) of the file, as delivered by
`createReadStream(filePath, {start, end})` for `0 ≤ start ≤ end`. -/
def sliceOf (file : List ℕ) (r : ByteRange) : List ℕ :=
  (file.drop r.start.toNat).take (r.stop - r.start + 1).toNat

/-- Result a worker posts back: `rowsProcessed` and the stats map
(`processingTime` is wall-clock noise and not modelled). -/
structure WorkerResult where
  rowsProcessed : ℕ
  stats : StatsMap
deriving DecidableEq

/-- Model of `processFileChunk` of src/worker.ts on the byte range assigned to one
worker: stream the bytes of the range through the line-splitting loop and
flush the final line. -/
def processFileChunk (file : List ℕ) (r : ByteRange) : WorkerResult :=
  let final := finishChunk (runBytes ⟨[], 0, []⟩ (sliceOf file r))
  ⟨final.rows, final.stats⟩

/-- Spawn one worker per chunk.  `createReadStream` validates its range:
`end` must be a non-negative integer and `start ≤ end` must hold,
otherwise it throws `ERR_OUT_OF_RANGE`, the worker posts an error and the
orchestrator's `Promise.all` rejects.  (`start` is always ≥ 0 for ranges
produced by `createChunks`.) -/
def runWorkers (file : List ℕ) : List ByteRange → Except String (List WorkerResult)
  | [] => .ok []
  | r :: rs =>
    if r.start ≤ r.stop then
      match runWorkers file rs with
      | .ok ws => .ok (processFileChunk file r :: ws)
      | .error e => .error e
    else .error "ERR_OUT_OF_RANGE"

/-! ### Merge reducer (src/main.ts lines 136-151) -/

/-- Merging one worker entry into `masterStats`: a fresh station is
copied (appended), an existing one is combined field-wise with
`sum += sum; cnt += cnt; min = Math.min; max = Math.max`. -/
def mergeOne (m : StatsMap) (station : List ℕ) (s : StationStats) : StatsMap :=
  match statsLookup m station with
  | none => m ++ [(station, s)]
  | some _ =>
      m.map fun e =>
        if e.1 = station then
          (e.1, ⟨e.2.sum + s.sum, e.2.cnt + s.cnt, min e.2.min s.min, max e.2.max s.max⟩)
        else e

/-- The `for (const [station, stats] of Object.entries(result.stats))`
loop: fold every entry of one worker's stats into `masterStats`. -/
def mergeInto (m : StatsMap) (w : StatsMap) : StatsMap :=
  w.foldl (fun acc e => mergeOne acc e.1 e.2) m

/-- Partition, run all workers, and fold their results into
`masterStats` in completion order (the fold is pointwise commutative, so
the source's arbitrary completion order is irrelevant; the model uses
list order). -/
def runMerged (file : List ℕ) (cpuCount : ℕ) : Except String StatsMap :=
  match runWorkers file (createChunks file cpuCount) with
  | .ok ws => .ok ((ws.map (·.stats)).foldl mergeInto [])
  | .error e => .error e

/-! ### Report formatting (src/main.ts lines 172-189) -/

/-- Decimal digits (ASCII) of `n`, most significant first; the fuel
argument only bounds the recursion and `fuel = n + 1` always suffices. -/
def natDigitsAux : ℕ → ℕ → List ℕ
  | 0, _ => []
  | fuel + 1, n => if n < 10 then [48 + n] else natDigitsAux fuel (n / 10) ++ [48 + n % 10]

/-- Decimal digit string (ASCII codes) of a natural number. -/
def natDigits (n : ℕ) : List ℕ := natDigitsAux (n + 1) n

/-- Model of `Number.prototype.toFixed(1)`: for finite `x`, emit `-` for negative
`x`, then choose the integer `n` minimising `|n / 10 - |x||` (ties to the
larger `n`, i.e. round half away from zero) and print `n` with one
fractional digit.  On the exact rationals of this model that is
`n = ⌊|x| * 10 + 1/2⌋`. -/
def toFixed1 (q : ℚ) : List ℕ :=
  let sgn : List ℕ := if q < 0 then [45] else []
  let a : ℚ := if q < 0 then -q else q
  let m : ℕ := (⌊a * 10 + 1/2⌋).toNat
  sgn ++ natDigits (m / 10) ++ [46, 48 + m % 10]

/-- Model of `Array.from(masterStats.keys()).sort()`: JS default sort compares
strings by their UTF-16 code units, lexicographically. -/
def sortedStations (m : StatsMap) : List (List ℕ) :=
  List.insertionSort (fun a b : List ℕ => a ≤ b) (m.map (·.1))

/-- One `${station}:${min}/${mean}/${max}` record; the mean is computed
here, at format time, as `sum / cnt`. -/
def renderEntry (station : List ℕ) (s : StationStats) : List ℕ :=
  station ++ [58] ++ toFixed1 s.min ++ [47] ++ toFixed1 (s.sum / (s.cnt : ℚ)) ++ [47] ++ toFixed1 s.max

/-- The final output string `{parts.join(',\n')}` (code units):
entries in sorted-station order, separated by a comma and a newline,
wrapped in braces. -/
def formatReport (m : StatsMap) : List ℕ :=
  [123] ++ (List.intercalate [44, 10]
    ((sortedStations m).map fun k => renderEntry k ((statsLookup m k).getD default))) ++ [125]

/-- The whole pipeline up to the full report string.  The program prints
`finalOutput.slice(0, 1000)`, i.e. at most the first 1000 code units of
this list. -/
def pipelineReport (file : List ℕ) (cpuCount : ℕ) : Except String (List ℕ) :=
  match runMerged file cpuCount with
  | .ok m => .ok (formatReport m)
  | .error e => .error e

/-- The text actually written to the console for the report. -/
def printedReport (file : List ℕ) (cpuCount : ℕ) : Except String (List ℕ) :=
  match pipelineReport file cpuCount with
  | .ok out => .ok (out.take 1000)
  | .error e => .error e

/-- The station keys in the order they appear in the emitted report. -/
def pipelineKeys (file : List ℕ) (cpuCount : ℕ) : Except String (List (List ℕ)) :=
  match runMerged file cpuCount with
  | .ok m => .ok (sortedStations m)
  | .error e => .error e




/-! ### Derived notions used to state the claims -/

/-- Split a byte list at newline bytes (the segments between newlines;
a trailing newline yields a final empty segment). -/
def splitNL : List ℕ → List (List ℕ)
  | [] => [[]]
  | 10 :: r => [] :: splitNL r
  | b :: r =>
    match splitNL r with
    | s :: ss => (b :: s) :: ss
    | [] => [[b]]

/-- The lines of a byte list, as processed by the worker: the non-empty
segments between newlines, including a non-empty trailing segment. -/
def linesOf (s : List ℕ) : List (List ℕ) := (splitNL s).filter (fun l => !l.isEmpty)

/-- The station key a line contributes to (`none` when the line has no
semicolon and is skipped). -/
def lineKey (line : List ℕ) : Option (List ℕ) :=
  (semiIdx line).map fun i => jsStringOfBytes (line.take i)

/-- The temperature value a line contributes (unused when the line has no
semicolon). -/
def lineVal (line : List ℕ) : ℚ :=
  match semiIdx line with
  | none => 0
  | some i => parseTemperature (line.drop (i + 1))

/-- The temperature values of the lines of `file` that bear key `k`, in
file order. -/
def keyLineVals (file : List ℕ) (k : List ℕ) : List ℚ :=
  (linesOf file).filterMap fun l => if lineKey l = some k then some (lineVal l) else none

/-- Number of lines of `file` that contain a semicolon and bear key `k`
(every such line is aggregated by the worker, whatever its value bytes). -/
def countKeyLines (file : List ℕ) (k : List ℕ) : ℕ := (keyLineVals file k).length

/-- Sum of the values of the lines of `file` bearing key `k`. -/
def sumKeyLines (file : List ℕ) (k : List ℕ) : ℚ := (keyLineVals file k).sum

/-- The `count` recorded for key `k` in a stats map (0 if absent). -/
def cntAt (m : StatsMap) (k : List ℕ) : ℕ :=
  match statsLookup m k with
  | none => 0
  | some s => s.cnt

/-- The `sum` recorded for key `k` in a stats map (0 if absent). -/
def sumAt (m : StatsMap) (k : List ℕ) : ℚ :=
  match statsLookup m k with
  | none => 0
  | some s => s.sum

/-- One aggregation step on the optional stats of a single key: the
first value creates `{v, 1, v, v}`, later ones update sum/cnt/min/max
exactly as `processLineFromBuffer` does. -/
def applyVal : Option StationStats → ℚ → StationStats
  | none, v => ⟨v, 1, v, v⟩
  | some s, v =>
      ⟨s.sum + v, s.cnt + 1, if v < s.min then v else s.min, if v > s.max then v else s.max⟩

/-- Fold a list of values for one key over its optional stats. -/
def foldVals (o : Option StationStats) (vs : List ℚ) : Option StationStats :=
  vs.foldl (fun a v => some (applyVal a v)) o

/-- Field-wise merge of two stats records (the `else` branch of the
master-stats merge loop in src/main.ts). -/
def mergeSS (a b : StationStats) : StationStats :=
  ⟨a.sum + b.sum, a.cnt + b.cnt, min a.min b.min, max a.max b.max⟩

/-- Merge of the optional stats of one key from two maps. -/
def combineOpt : Option StationStats → Option StationStats → Option StationStats
  | none, b => b
  | a, none => a
  | some a, some b => some (mergeSS a b)

/-- The value (if any) which flushing the pending line `cur` contributes
to key `k`. -/
def flushVals (k cur : List ℕ) : List ℚ :=
  if cur ≠ [] ∧ lineKey cur = some k then [lineVal cur] else []

/-- The values contributed to key `k` by the line-splitting loop run on
`bytes` with pending partial line `cur`, including the final flush. -/
def valsF (k : List ℕ) : List ℕ → List ℕ → List ℚ
  | cur, [] => flushVals k cur
  | cur, b :: r => if b = 10 then flushVals k cur ++ valsF k [] r else valsF k (cur ++ [b]) r

/-- Station keys of a stats map, in insertion order. -/
def keysOf (m : StatsMap) : List (List ℕ) := m.map (·.1)

/-! ### Spec-modelled validity of a line (used only to compare the code
against the specification's stricter notion) -/

/-- Modelled from the spec: a decimal-digit byte. -/
def isDigitByte (b : ℕ) : Bool := decide (48 ≤ b ∧ b ≤ 57)

/-- Modelled from the spec (§4.2): a syntactically valid value is an
optional leading minus, one or more digits, and an optional single
decimal point followed by digit bytes only; anything else (extra
separators, several dots, no digits, trailing junk) is malformed. -/
def specValidValue (v : List ℕ) : Bool :=
  let core := fun (w : List ℕ) =>
    let ds := w.takeWhile isDigitByte
    let rest := w.dropWhile isDigitByte
    !ds.isEmpty &&
      (rest.isEmpty || (decide (rest.headD 0 = 46) && (rest.tail.all isDigitByte)))
  match v with
  | 45 :: w => core w
  | w => core w

/-- Modelled from the spec (§4.2, §7): a syntactically valid line has
exactly one field-separator byte and a valid value after it. -/
def specValidLine (line : List ℕ) : Bool :=
  decide (line.count 59 = 1) &&
    (match semiIdx line with
     | none => false
     | some i => specValidValue (line.drop (i + 1)))

/-- Modelled from the spec: the number of syntactically valid lines of
the file bearing key `k`. -/
def specValidKeyCount (file k : List ℕ) : ℕ :=
  ((linesOf file).filter fun l => specValidLine l && decide (lineKey l = some k)).length

/-! ### Concrete input files used in witnesses and counterexamples -/

/-- Bytes of `"ab\ncd\nef"` (8 bytes, no trailing newline). -/
def fileABef : List ℕ := [97, 98, 10, 99, 100, 10, 101, 102]

/-- Bytes of `"ab\ncd\nef\n"` (9 bytes). -/
def fileABefNl : List ℕ := [97, 98, 10, 99, 100, 10, 101, 102, 10]

/-- Bytes of `"Tel Aviv;33.9\nDhaka;36.9\nTel Aviv;30.1\n"` (39 bytes). -/
def telAvivFile : List ℕ :=
  [84, 101, 108, 32, 65, 118, 105, 118, 59, 51, 51, 46, 57, 10,
   68, 104, 97, 107, 97, 59, 51, 54, 46, 57, 10,
   84, 101, 108, 32, 65, 118, 105, 118, 59, 51, 48, 46, 49, 10]

/-- Decidable equality for `Except` results (used to evaluate concrete
pipeline runs). -/
instance {ε α : Type} [DecidableEq ε] [DecidableEq α] : DecidableEq (Except ε α) := fun a b =>
  match a, b with
  | .ok x, .ok y =>
    if h : x = y then .isTrue (h ▸ rfl) else .isFalse (fun hh => h (Except.ok.inj hh))
  | .error x, .error y =>
    if h : x = y then .isTrue (h ▸ rfl) else .isFalse (fun hh => h (Except.error.inj hh))
  | .ok _, .error _ => .isFalse (fun hh => Except.noConfusion hh)
  | .error _, .ok _ => .isFalse (fun hh => Except.noConfusion hh)

/-- Bytes of `"𐀀;1\n\uFFFF;2\n"`: the first station is U+10000 (a
4-byte UTF-8 sequence, a surrogate pair in UTF-16), the second is U+FFFF
(a 3-byte sequence, a single code unit). -/
def astralFile : List ℕ :=
  [240, 144, 128, 128, 59, 49, 10, 239, 191, 191, 59, 50, 10]

/-! ### Pointwise lemmas about the stats maps -/

theorem statsLookup_append (m1 m2 : StatsMap) (k : List ℕ) :
    statsLookup (m1 ++ m2) k =
      match statsLookup m1 k with
      | some s => some s
      | none => statsLookup m2 k := by
  induction m1 with
  | nil => simp [statsLookup]
  | cons e t ih =>
    by_cases h : e.1 = k <;> simp [statsLookup, h, ih]

theorem statsLookup_eq_none_iff (m : StatsMap) (k : List ℕ) :
    statsLookup m k = none ↔ k ∉ keysOf m := by
  induction m with
  | nil => simp [statsLookup, keysOf]
  | cons e t ih =>
    by_cases h : e.1 = k
    · simp [statsLookup, keysOf, h]
    · simp only [statsLookup, keysOf, List.map_cons, List.mem_cons, if_neg h]
      rw [keysOf] at ih
      rw [ih]
      constructor
      · rintro hn hor
        rcases hor with hk | hk
        · exact h hk.symm
        · exact hn hk
      · intro hn hk
        exact hn (Or.inr hk)

theorem statsLookup_map_update (m : StatsMap) (station k : List ℕ)
    (g : StationStats → StationStats) :
    statsLookup (m.map fun e => if e.1 = station then (e.1, g e.2) else e) k =
      match statsLookup m k with
      | none => none
      | some v => some (if k = station then g v else v) := by
  induction m with
  | nil => simp [statsLookup]
  | cons e t ih =>
    simp only [List.map_cons]
    by_cases hs : e.1 = station
    · by_cases h : e.1 = k
      · subst h; subst hs
        simp [statsLookup]
      · have hsk : ¬ (station = k) := fun he => h (hs.trans he)
        simp [statsLookup, hs, h, hsk, ih]
    · by_cases h : e.1 = k
      · subst h
        simp [statsLookup, hs]
      · simp [statsLookup, hs, h, ih]

theorem statsLookup_updateStats (station : List ℕ) (t : ℚ) (m : StatsMap) (k : List ℕ) :
    statsLookup (updateStats station t m) k =
      if k = station then some (applyVal (statsLookup m station) t) else statsLookup m k := by
  unfold updateStats
  cases h : statsLookup m station with
  | none =>
    rw [statsLookup_append]
    by_cases hk : k = station
    · subst hk
      simp [h, statsLookup, applyVal]
    · have hne : ¬ ((station : List ℕ) = k) := fun he => hk he.symm
      cases hm : statsLookup m k <;> simp [hk, hm, statsLookup, hne]
  | some s =>
    rw [statsLookup_map_update m station k
      (fun v => ⟨v.sum + t, v.cnt + 1, if t < v.min then t else v.min,
                 if t > v.max then t else v.max⟩)]
    by_cases hk : k = station
    · subst hk
      simp [h, applyVal]
    · cases hm : statsLookup m k <;> simp [hk, hm]

theorem statsLookup_processLine (line : List ℕ) (m : StatsMap) (k : List ℕ) :
    statsLookup (processLineFromBuffer line m) k =
      if lineKey line = some k then some (applyVal (statsLookup m k) (lineVal line))
      else statsLookup m k := by
  unfold processLineFromBuffer lineKey lineVal
  cases h : semiIdx line with
  | none => simp [h]
  | some i =>
    rw [statsLookup_updateStats]
    by_cases hk : k = jsStringOfBytes (line.take i)
    · simp [h, hk]
    · have : ¬ (jsStringOfBytes (line.take i) = k) := fun he => hk he.symm
      simp [h, hk, this]

/-! ### Algebra of `combineOpt`, `applyVal`, `foldVals` -/

theorem combineOpt_none_right (a : Option StationStats) : combineOpt a none = a := by
  cases a <;> rfl

theorem combineOpt_none_left (a : Option StationStats) : combineOpt none a = a := by
  cases a <;> rfl

theorem ite_lt_eq_min (v m : ℚ) : (if v < m then v else m) = min m v := by
  rcases le_or_lt m v with h | h
  · simp [min_eq_left h, not_lt.mpr h]
  · simp [h, min_eq_right h.le]

theorem ite_gt_eq_max (v m : ℚ) : (if v > m then v else m) = max m v := by
  rcases le_or_lt v m with h | h
  · simp [max_eq_left h, not_lt.mpr h]
  · simp [h, max_eq_right h.le]

theorem applyVal_combineOpt (a b : Option StationStats) (v : ℚ) :
    some (applyVal (combineOpt a b) v) = combineOpt a (some (applyVal b v)) := by
  cases a with
  | none => cases b <;> rfl
  | some a0 =>
    cases b with
    | none =>
      simp [combineOpt, applyVal, mergeSS, ite_lt_eq_min, ite_gt_eq_max]
    | some b0 =>
      simp only [combineOpt, applyVal, mergeSS, ite_lt_eq_min, ite_gt_eq_max]
      refine congrArg some ?_
      refine StationStats.mk.injEq .. |>.mpr ?_
      refine ⟨by ring, by ring, ?_, ?_⟩
      · rw [min_assoc]
      · rw [max_assoc]

theorem foldVals_append (o : Option StationStats) (xs ys : List ℚ) :
    foldVals o (xs ++ ys) = foldVals (foldVals o xs) ys := by
  unfold foldVals
  exact List.foldl_append ..

theorem foldVals_combineOpt (a : Option StationStats) (vs : List ℚ) :
    ∀ b, foldVals (combineOpt a b) vs = combineOpt a (foldVals b vs) := by
  induction vs with
  | nil => intro b; rfl
  | cons v vs ih =>
    intro b
    show foldVals (some (applyVal (combineOpt a b) v)) vs =
      combineOpt a (foldVals (some (applyVal b v)) vs)
    rw [applyVal_combineOpt, ih]

theorem combineOpt_foldVals_none (a : Option StationStats) (ys : List ℚ) :
    combineOpt a (foldVals none ys) = foldVals a ys := by
  have := foldVals_combineOpt a ys none
  rw [combineOpt_none_right] at this
  exact this.symm

theorem foldVals_flatten_step (xs ys : List ℚ) :
    foldVals none (xs ++ ys) = combineOpt (foldVals none xs) (foldVals none ys) := by
  rw [foldVals_append, combineOpt_foldVals_none]

/-! ### The worker as a per-key fold -/

theorem finishChunk_stats_lookup (st : WorkerState) (k : List ℕ) :
    statsLookup (finishChunk st).stats k = foldVals (statsLookup st.stats k) (flushVals k st.cur) := by
  unfold finishChunk flushVals
  by_cases hcur : st.cur = []
  · simp [hcur, foldVals]
  · by_cases hkey : lineKey st.cur = some k
    · simp only [hcur, hkey, ne_eq, not_false_iff, if_pos, and_self, if_true]
      rw [statsLookup_processLine]
      simp [hkey, foldVals]
    · simp only [hcur, hkey, ne_eq, not_false_iff, and_false, if_false, if_true]
      rw [statsLookup_processLine]
      simp [hkey, foldVals]

theorem statsLookup_finish_runBytes (bytes : List ℕ) :
    ∀ (st : WorkerState) (k : List ℕ),
      statsLookup (finishChunk (runBytes st bytes)).stats k =
        foldVals (statsLookup st.stats k) (valsF k st.cur bytes) := by
  induction bytes with
  | nil =>
    intro st k
    rw [show runBytes st [] = st from rfl, valsF]
    exact finishChunk_stats_lookup st k
  | cons b r ih =>
    intro st k
    rw [show runBytes st (b :: r) = runBytes (stepByte st b) r from rfl, valsF]
    by_cases hb : b = 10
    · subst hb
      simp only [if_pos rfl]
      by_cases hcur : st.cur = []
      · have hstep : stepByte st 10 = ⟨st.stats, st.rows, []⟩ := by
          simp [stepByte, hcur]
        rw [hstep, ih]
        simp [flushVals, hcur, foldVals]
      · have hstep : stepByte st 10 = ⟨processLineFromBuffer st.cur st.stats, st.rows + 1, []⟩ := by
          simp [stepByte, hcur]
        rw [hstep, ih]
        show foldVals (statsLookup (processLineFromBuffer st.cur st.stats) k) (valsF k [] r) =
          foldVals (statsLookup st.stats k) (flushVals k st.cur ++ valsF k [] r)
        rw [foldVals_append, statsLookup_processLine]
        unfold flushVals
        by_cases hkey : lineKey st.cur = some k
        · simp [hkey, hcur, foldVals]
        · simp [hkey, hcur, foldVals]
    · have hstep : stepByte st b = ⟨st.stats, st.rows, st.cur ++ [b]⟩ := by
        simp [stepByte, hb]
      rw [if_neg hb, hstep, ih]

theorem processFileChunk_stats_lookup (file : List ℕ) (r : ByteRange) (k : List ℕ) :
    statsLookup (processFileChunk file r).stats k = foldVals none (valsF k [] (sliceOf file r)) := by
  unfold processFileChunk
  rw [statsLookup_finish_runBytes]
  rfl

/-! ### `valsF` versus the lines of the input -/

theorem splitNL_no_nl (A : List ℕ) (h : 10 ∉ A) : splitNL A = [A] := by
  induction A with
  | nil => rfl
  | cons b r ih =>
    have hb : b ≠ 10 := fun he => h (he ▸ List.mem_cons_self b r)
    have hr : 10 ∉ r := fun hm => h (List.mem_cons_of_mem b hm)
    rw [show splitNL (b :: r) = (match splitNL r with
      | s :: ss => (b :: s) :: ss
      | [] => [[b]]) from by rw [splitNL.eq_def]; split <;> simp_all]
    rw [ih hr]

theorem splitNL_append_nl (A r : List ℕ) (h : 10 ∉ A) :
    splitNL (A ++ 10 :: r) = A :: splitNL r := by
  induction A with
  | nil => simp [splitNL]
  | cons b t ih =>
    have hb : b ≠ 10 := fun he => h (he ▸ List.mem_cons_self b t)
    have ht : 10 ∉ t := fun hm => h (List.mem_cons_of_mem b hm)
    rw [List.cons_append]
    rw [show splitNL (b :: (t ++ 10 :: r)) = (match splitNL (t ++ 10 :: r) with
      | s :: ss => (b :: s) :: ss
      | [] => [[b]]) from by rw [splitNL.eq_def]; split <;> simp_all]
    rw [ih ht]

theorem keyLineVals_no_nl (cur : List ℕ) (k : List ℕ) (h : 10 ∉ cur) :
    keyLineVals cur k = flushVals k cur := by
  unfold keyLineVals linesOf flushVals
  rw [splitNL_no_nl cur h]
  by_cases hcur : cur = []
  · subst hcur; simp
  · have hemp : cur.isEmpty = false := by
      cases cur with
      | nil => exact absurd rfl hcur
      | cons a t => rfl
    by_cases hkey : lineKey cur = some k
    · simp [List.filter, hemp, hcur, hkey, List.filterMap]
    · simp [List.filter, hemp, hcur, hkey, List.filterMap]

theorem keyLineVals_cons_nl (cur r : List ℕ) (k : List ℕ) (h : 10 ∉ cur) :
    keyLineVals (cur ++ 10 :: r) k = flushVals k cur ++ keyLineVals r k := by
  unfold keyLineVals linesOf flushVals
  rw [splitNL_append_nl cur r h]
  by_cases hcur : cur = []
  · subst hcur; simp
  · have hemp : cur.isEmpty = false := by
      cases cur with
      | nil => exact absurd rfl hcur
      | cons a t => rfl
    by_cases hkey : lineKey cur = some k
    · simp [List.filter, hemp, hcur, hkey, List.filterMap_cons]
    · simp [List.filter, hemp, hcur, hkey, List.filterMap_cons]

theorem valsF_eq_keyLineVals (k : List ℕ) (s : List ℕ) :
    ∀ cur, 10 ∉ cur → valsF k cur s = keyLineVals (cur ++ s) k := by
  induction s with
  | nil =>
    intro cur hcur
    rw [valsF, List.append_nil, keyLineVals_no_nl cur k hcur]
  | cons b r ih =>
    intro cur hcur
    rw [valsF]
    by_cases hb : b = 10
    · subst hb
      rw [if_pos rfl, ih [] (by simp), keyLineVals_cons_nl cur r k hcur]
      simp
    · rw [if_neg hb, ih (cur ++ [b]) (by
        intro hm
        rcases List.mem_append.mp hm with h1 | h1
        · exact hcur h1
        · simp at h1; exact hb h1.symm)]
      simp

theorem valsF_nil_eq (k s : List ℕ) : valsF k [] s = keyLineVals s k := by
  rw [valsF_eq_keyLineVals k s [] (by simp), List.nil_append]

/-! ### The merge reducer, pointwise -/

theorem mergeOne_of_none (m : StatsMap) (station : List ℕ) (s : StationStats)
    (h : statsLookup m station = none) : mergeOne m station s = m ++ [(station, s)] := by
  unfold mergeOne
  rw [h]

theorem mergeOne_of_some (m : StatsMap) (station : List ℕ) (s : StationStats)
    (v : StationStats) (h : statsLookup m station = some v) :
    mergeOne m station s =
      m.map fun e => if e.1 = station then (e.1, mergeSS e.2 s) else e := by
  unfold mergeOne
  rw [h]
  rfl

theorem statsLookup_mergeOne (m : StatsMap) (station : List ℕ) (s : StationStats) (k : List ℕ) :
    statsLookup (mergeOne m station s) k =
      if k = station then combineOpt (statsLookup m station) (some s) else statsLookup m k := by
  cases h : statsLookup m station with
  | none =>
    rw [mergeOne_of_none m station s h, statsLookup_append]
    by_cases hk : k = station
    · subst hk
      simp [h, statsLookup, combineOpt]
    · have hne : ¬ ((station : List ℕ) = k) := fun he => hk he.symm
      cases hm : statsLookup m k <;> simp [hk, hm, statsLookup, hne]
  | some v =>
    rw [mergeOne_of_some m station s v h,
      statsLookup_map_update m station k (fun v => mergeSS v s)]
    by_cases hk : k = station
    · subst hk
      simp [h, combineOpt]
    · cases hm : statsLookup m k <;> simp [hk, hm]

theorem statsLookup_mergeInto (w : StatsMap) :
    ∀ (m : StatsMap) (k : List ℕ), (keysOf w).Nodup →
      statsLookup (mergeInto m w) k = combineOpt (statsLookup m k) (statsLookup w k) := by
  induction w with
  | nil =>
    intro m k _
    rw [show mergeInto m [] = m from rfl, show statsLookup [] k = none from rfl,
      combineOpt_none_right]
  | cons e w ih =>
    intro m k hnd
    have hstep : mergeInto m (e :: w) = mergeInto (mergeOne m e.1 e.2) w := rfl
    rw [show keysOf (e :: w) = e.1 :: keysOf w from rfl] at hnd
    have hmem : e.1 ∉ keysOf w := (List.nodup_cons.mp hnd).1
    have hnd' : (keysOf w).Nodup := (List.nodup_cons.mp hnd).2
    rw [hstep, ih (mergeOne m e.1 e.2) k hnd', statsLookup_mergeOne,
      show statsLookup (e :: w) k = if e.1 = k then some e.2 else statsLookup w k from rfl]
    by_cases hk : k = e.1
    · have hw : statsLookup w k = none := (statsLookup_eq_none_iff w k).mpr (hk ▸ hmem)
      rw [hw, combineOpt_none_right, if_pos hk, if_pos hk.symm, hk]
    · have he : ¬ (e.1 = k) := fun hh => hk hh.symm
      rw [if_neg hk, if_neg he]

theorem statsLookup_foldl_mergeInto (wss : List StatsMap) :
    ∀ (acc : StatsMap) (k : List ℕ), (∀ w ∈ wss, (keysOf w).Nodup) →
      statsLookup (wss.foldl mergeInto acc) k =
        wss.foldl (fun o w => combineOpt o (statsLookup w k)) (statsLookup acc k) := by
  induction wss with
  | nil => intro acc k _; rfl
  | cons w wss ih =>
    intro acc k hnd
    rw [List.foldl_cons, List.foldl_cons,
      ih (mergeInto acc w) k (fun x hx => hnd x (List.mem_cons_of_mem w hx)),
      statsLookup_mergeInto w acc k (hnd w (List.mem_cons_self w wss))]

theorem foldl_combineOpt_foldVals (VS : List (List ℚ)) :
    ∀ acc : List ℚ,
      VS.foldl (fun o vs => combineOpt o (foldVals none vs)) (foldVals none acc) =
        foldVals none (acc ++ VS.flatten) := by
  induction VS with
  | nil => intro acc; simp
  | cons vs VS ih =>
    intro acc
    rw [List.foldl_cons, ← foldVals_flatten_step, ih (acc ++ vs)]
    simp

/-! ### Count / sum extraction from a per-key fold -/

theorem foldVals_some_fields (vs : List ℚ) :
    ∀ s : StationStats, ∃ s' : StationStats,
      foldVals (some s) vs = some s' ∧ s'.cnt = s.cnt + vs.length ∧ s'.sum = s.sum + vs.sum := by
  induction vs with
  | nil => intro s; exact ⟨s, rfl, by simp, by simp⟩
  | cons v vs ih =>
    intro s
    have hstep : foldVals (some s) (v :: vs) = foldVals (some (applyVal (some s) v)) vs := rfl
    obtain ⟨s', h1, h2, h3⟩ := ih (applyVal (some s) v)
    refine ⟨s', hstep ▸ h1, ?_, ?_⟩
    · rw [h2]; show s.cnt + 1 + vs.length = s.cnt + (vs.length + 1); omega
    · rw [h3]; show s.sum + v + vs.sum = s.sum + (v + vs.sum); ring

theorem foldVals_none_fields (vs : List ℚ) :
    (match foldVals none vs with
     | none => (0 : ℕ)
     | some s => s.cnt) = vs.length ∧
    (match foldVals none vs with
     | none => (0 : ℚ)
     | some s => s.sum) = vs.sum := by
  cases vs with
  | nil => exact ⟨rfl, rfl⟩
  | cons v vs =>
    have hstep : foldVals none (v :: vs) = foldVals (some (applyVal none v)) vs := rfl
    obtain ⟨s', h1, h2, h3⟩ := foldVals_some_fields vs (applyVal none v)
    rw [hstep, h1]
    constructor
    · show s'.cnt = vs.length + 1
      rw [h2]; show 0 + 1 + vs.length = vs.length + 1; omega
    · show s'.sum = v + vs.sum
      rw [h3]; show v + vs.sum = v + vs.sum; rfl

/-! ### Key-set invariants (no duplicate stations in any stats map) -/

theorem keysOf_map_update (m : StatsMap) (station : List ℕ) (g : StationStats → StationStats) :
    keysOf (m.map fun e => if e.1 = station then (e.1, g e.2) else e) = keysOf m := by
  induction m with
  | nil => rfl
  | cons e t ih =>
    simp only [keysOf, List.map_cons] at ih ⊢
    by_cases h : e.1 = station <;> simp [h, ih]

theorem keysOf_updateStats (station : List ℕ) (t : ℚ) (m : StatsMap) :
    keysOf (updateStats station t m) =
      if statsLookup m station = none then keysOf m ++ [station] else keysOf m := by
  unfold updateStats
  cases h : statsLookup m station with
  | none => simp [h, keysOf]
  | some v =>
    simp only [if_neg (by simp : ¬ (some v = (none : Option StationStats)))]
    exact keysOf_map_update m station
      (fun v => ⟨v.sum + t, v.cnt + 1, if t < v.min then t else v.min,
                 if t > v.max then t else v.max⟩)

theorem nodup_append_singleton (l : List (List ℕ)) (a : List ℕ)
    (hl : l.Nodup) (ha : a ∉ l) : (l ++ [a]).Nodup := by
  refine List.Nodup.append hl (List.nodup_singleton a) ?_
  intro x hx hy
  rw [List.mem_singleton] at hy
  subst hy
  exact ha hx

theorem nodup_updateStats (station : List ℕ) (t : ℚ) (m : StatsMap)
    (hm : (keysOf m).Nodup) : (keysOf (updateStats station t m)).Nodup := by
  rw [keysOf_updateStats]
  cases h : statsLookup m station with
  | none =>
    have hmem : station ∉ keysOf m := (statsLookup_eq_none_iff m station).mp h
    simp only [h, if_pos]
    exact nodup_append_singleton _ _ hm hmem
  | some v => simp [h, hm]

theorem nodup_processLine (line : List ℕ) (m : StatsMap) (hm : (keysOf m).Nodup) :
    (keysOf (processLineFromBuffer line m)).Nodup := by
  unfold processLineFromBuffer
  cases h : semiIdx line with
  | none => exact hm
  | some i => exact nodup_updateStats _ _ m hm

theorem nodup_finish_runBytes (bytes : List ℕ) :
    ∀ st : WorkerState, (keysOf st.stats).Nodup →
      (keysOf (finishChunk (runBytes st bytes)).stats).Nodup := by
  induction bytes with
  | nil =>
    intro st h
    rw [show runBytes st [] = st from rfl]
    unfold finishChunk
    by_cases hc : st.cur = []
    · simp [hc, h]
    · simp only [hc, ne_eq, not_false_iff, if_true]
      exact nodup_processLine _ _ h
  | cons b r ih =>
    intro st h
    rw [show runBytes st (b :: r) = runBytes (stepByte st b) r from rfl]
    refine ih (stepByte st b) ?_
    unfold stepByte
    by_cases hb : b = 10
    · by_cases hc : st.cur = [] <;> simp [hb, hc, h, nodup_processLine _ _ h]
    · simp [hb, h]

theorem nodup_processFileChunk (file : List ℕ) (r : ByteRange) :
    (keysOf (processFileChunk file r).stats).Nodup := by
  unfold processFileChunk
  exact nodup_finish_runBytes _ ⟨[], 0, []⟩ (by simp [keysOf])

theorem keysOf_mergeOne (m : StatsMap) (station : List ℕ) (s : StationStats) :
    keysOf (mergeOne m station s) =
      if statsLookup m station = none then keysOf m ++ [station] else keysOf m := by
  cases h : statsLookup m station with
  | none => rw [mergeOne_of_none m station s h]; simp [h, keysOf]
  | some v =>
    rw [mergeOne_of_some m station s v h]
    simp only [h, if_neg (by simp : ¬ (some v = (none : Option StationStats)))]
    exact keysOf_map_update m station (fun x => mergeSS x s)

theorem nodup_mergeOne (m : StatsMap) (station : List ℕ) (s : StationStats)
    (hm : (keysOf m).Nodup) : (keysOf (mergeOne m station s)).Nodup := by
  rw [keysOf_mergeOne]
  cases h : statsLookup m station with
  | none =>
    have hmem : station ∉ keysOf m := (statsLookup_eq_none_iff m station).mp h
    simp only [h, if_pos]
    exact nodup_append_singleton _ _ hm hmem
  | some v => simp [h, hm]

theorem nodup_mergeInto (w : StatsMap) :
    ∀ m : StatsMap, (keysOf m).Nodup → (keysOf (mergeInto m w)).Nodup := by
  induction w with
  | nil => intro m hm; exact hm
  | cons e w ih =>
    intro m hm
    exact ih (mergeOne m e.1 e.2) (nodup_mergeOne m e.1 e.2 hm)

theorem nodup_foldl_mergeInto (wss : List StatsMap) :
    ∀ acc : StatsMap, (keysOf acc).Nodup → (keysOf (wss.foldl mergeInto acc)).Nodup := by
  induction wss with
  | nil => intro acc h; exact h
  | cons w wss ih =>
    intro acc h
    exact ih (mergeInto acc w) (nodup_mergeInto w acc h)

/-! ### The orchestrator's worker spawn -/

theorem runWorkers_ok (file : List ℕ) (rs : List ByteRange) :
    ∀ ws, runWorkers file rs = .ok ws →
      ws = rs.map (processFileChunk file) ∧ ∀ r ∈ rs, r.start ≤ r.stop := by
  induction rs with
  | nil =>
    intro ws h
    rw [show runWorkers file [] = .ok [] from rfl] at h
    cases h
    exact ⟨rfl, by simp⟩
  | cons r rs ih =>
    intro ws h
    unfold runWorkers at h
    by_cases hr : r.start ≤ r.stop
    · rw [if_pos hr] at h
      cases hrec : runWorkers file rs with
      | ok ws' =>
        rw [hrec] at h
        cases h
        obtain ⟨h1, h2⟩ := ih ws' hrec
        refine ⟨by rw [h1, List.map_cons], ?_⟩
        intro x hx
        rcases List.mem_cons.mp hx with hx | hx
        · subst hx; exact hr
        · exact h2 x hx
      | error e =>
        rw [hrec] at h
        cases h
    · rw [if_neg hr] at h
      cases h

/-! ### Soundness of the byte scanner -/

theorem findLastNL_sound (file : List ℕ) (s : ℕ) :
    ∀ len p, findLastNL file s len = some p → s ≤ p ∧ p < s + len ∧ file.getD p 0 = 10 := by
  intro len
  induction len with
  | zero => intro p h; cases h
  | succ len ih =>
    intro p h
    unfold findLastNL at h
    by_cases hc : file.getD (s + len) 0 = 10
    · rw [if_pos hc] at h
      cases h
      exact ⟨by omega, by omega, hc⟩
    · rw [if_neg hc] at h
      obtain ⟨h1, h2, h3⟩ := ih p h
      exact ⟨h1, by omega, h3⟩

theorem gpnlAux_sound (file : List ℕ) :
    ∀ (fuel : ℕ) (e : ℤ), gpnlAux file fuel e = -1 ∨
      ∃ j : ℕ, gpnlAux file fuel e = (j : ℤ) ∧ j < file.length ∧ file.getD j 0 = 10 := by
  intro fuel
  induction fuel with
  | zero => intro e; exact Or.inl rfl
  | succ fuel ih =>
    intro e
    unfold gpnlAux
    by_cases he : e > 0
    · rw [if_pos he]
      set searchStart := max 0 (e - CHUNK_SIZE) with hss
      by_cases hbr : readLen file searchStart = 0
      · rw [if_pos hbr]; exact Or.inl rfl
      · rw [if_neg hbr]
        cases hfind : findLastNL file searchStart.toNat (readLen file searchStart).toNat with
        | some p =>
          refine Or.inr ⟨p, rfl, ?_, (findLastNL_sound file _ _ p hfind).2.2⟩
          have hb := (findLastNL_sound file _ _ p hfind).2.1
          have hs0 : (0 : ℤ) ≤ searchStart := le_max_left 0 _
          have hsL : searchStart < (file.length : ℤ) := by
            by_contra hge
            have : readLen file searchStart = 0 := by
              unfold readLen
              rw [if_neg hge]
            exact hbr this
          have hlen : (readLen file searchStart).toNat ≤
              ((file.length : ℤ) - searchStart).toNat := by
            unfold readLen
            rw [if_pos hsL]
            have : min CHUNK_SIZE ((file.length : ℤ) - searchStart) ≤
                (file.length : ℤ) - searchStart := min_le_right _ _
            omega
          omega
        | none => exact ih searchStart
    · rw [if_neg he]; exact Or.inl rfl

theorem gpnl_sound (file : List ℕ) (off : ℤ) :
    getPreviousNewlinePosition file off = -1 ∨
      ∃ j : ℕ, getPreviousNewlinePosition file off = (j : ℤ) ∧ j < file.length ∧
        file.getD j 0 = 10 :=
  gpnlAux_sound file _ off

/-! ### Structure of the ranges produced by `createChunks` -/

theorem chunkEnd_le (file : List ℕ) (approx : ℤ) (remaining : ℕ) (cursor : ℤ) :
    chunkEnd file approx remaining cursor ≤ (file.length : ℤ) - 1 := by
  unfold chunkEnd
  by_cases h0 : remaining = 0
  · simp [h0]
  · rw [if_neg h0]
    rcases gpnl_sound file (cursor + approx - 1) with h | ⟨j, hj, hlt, _⟩
    · simp [h]
    · rw [hj]
      have hne : ¬ ((j : ℤ) = -1) := by omega
      rw [if_neg hne]
      omega

theorem chunksLoop_succ (file : List ℕ) (approx : ℤ) (remaining : ℕ) (cursor : ℤ) :
    chunksLoop file approx (remaining + 1) cursor =
      if chunkEnd file approx remaining cursor + 1 ≥ (file.length : ℤ) then
        [⟨cursor, chunkEnd file approx remaining cursor⟩]
      else ⟨cursor, chunkEnd file approx remaining cursor⟩ ::
        chunksLoop file approx remaining (chunkEnd file approx remaining cursor + 1) := rfl

theorem chunksLoop_ne_nil (file : List ℕ) (approx : ℤ) (remaining : ℕ) (cursor : ℤ) :
    chunksLoop file approx (remaining + 1) cursor ≠ [] := by
  rw [chunksLoop_succ]
  by_cases h : chunkEnd file approx remaining cursor + 1 ≥ (file.length : ℤ) <;>
    simp [h]

theorem chunksLoop_headI_start (file : List ℕ) (approx : ℤ) (remaining : ℕ) (cursor : ℤ) :
    (chunksLoop file approx (remaining + 1) cursor).headI.start = cursor := by
  rw [chunksLoop_succ]
  by_cases h : chunkEnd file approx remaining cursor + 1 ≥ (file.length : ℤ) <;>
    simp [h, List.headI]

theorem chunksLoop_rec_case (file : List ℕ) (approx : ℤ) (remaining : ℕ) (cursor : ℤ)
    (h : ¬ chunkEnd file approx remaining cursor + 1 ≥ (file.length : ℤ)) :
    remaining ≠ 0 ∧
      chunkEnd file approx remaining cursor =
        getPreviousNewlinePosition file (cursor + approx - 1) ∧
      getPreviousNewlinePosition file (cursor + approx - 1) ≠ -1 := by
  have h0 : remaining ≠ 0 := by
    intro h0
    rw [chunkEnd, if_pos h0] at h
    omega
  refine ⟨h0, ?_, ?_⟩
  · rw [chunkEnd, if_neg h0]
    by_cases hp : getPreviousNewlinePosition file (cursor + approx - 1) = -1
    · exfalso
      rw [chunkEnd, if_neg h0] at h
      simp only [hp, if_true, if_pos] at h
      omega
    · simp [hp]
  · intro hp
    rw [chunkEnd, if_neg h0] at h
    simp only [hp, if_true, if_pos] at h
    omega

theorem chunksLoop_getLast_stop (file : List ℕ) (approx : ℤ) :
    ∀ (remaining : ℕ) (cursor : ℤ), ∃ r : ByteRange,
      (chunksLoop file approx (remaining + 1) cursor).getLast? = some r ∧
        r.stop = (file.length : ℤ) - 1 := by
  intro remaining
  induction remaining with
  | zero =>
    intro cursor
    have he : chunkEnd file approx 0 cursor = (file.length : ℤ) - 1 := by
      rw [chunkEnd, if_pos rfl]
    have hge : chunkEnd file approx 0 cursor + 1 ≥ (file.length : ℤ) := by omega
    rw [chunksLoop_succ, if_pos hge]
    exact ⟨⟨cursor, chunkEnd file approx 0 cursor⟩, rfl, he⟩
  | succ m ih =>
    intro cursor
    rw [chunksLoop_succ]
    by_cases h : chunkEnd file approx (m + 1) cursor + 1 ≥ (file.length : ℤ)
    · rw [if_pos h]
      have hle := chunkEnd_le file approx (m + 1) cursor
      refine ⟨⟨cursor, chunkEnd file approx (m + 1) cursor⟩, rfl, ?_⟩
      show chunkEnd file approx (m + 1) cursor = (file.length : ℤ) - 1
      omega
    · rw [if_neg h]
      obtain ⟨r, hr, hstop⟩ := ih (chunkEnd file approx (m + 1) cursor + 1)
      cases hl : chunksLoop file approx (m + 1) (chunkEnd file approx (m + 1) cursor + 1) with
      | nil => exact absurd hl (chunksLoop_ne_nil _ _ _ _)
      | cons y ys =>
        rw [hl] at hr
        exact ⟨r, by rw [List.getLast?_cons_cons, hr], hstop⟩

theorem chunksLoop_chain (file : List ℕ) (approx : ℤ) :
    ∀ (remaining : ℕ) (cursor : ℤ),
      List.Chain' (fun a b : ByteRange => a.stop + 1 = b.start)
        (chunksLoop file approx remaining cursor) := by
  intro remaining
  induction remaining with
  | zero => intro cursor; exact List.chain'_nil
  | succ m ih =>
    intro cursor
    rw [chunksLoop_succ]
    by_cases h : chunkEnd file approx m cursor + 1 ≥ (file.length : ℤ)
    · rw [if_pos h]; exact List.chain'_singleton _
    · rw [if_neg h]
      rw [List.chain'_cons']
      refine ⟨?_, ih (chunkEnd file approx m cursor + 1)⟩
      intro b hb
      have h0 : m ≠ 0 := (chunksLoop_rec_case file approx m cursor h).1
      obtain ⟨m', hm'⟩ : ∃ m', m = m' + 1 := ⟨m - 1, by omega⟩
      subst hm'
      have hhead := chunksLoop_headI_start file approx m' (chunkEnd file approx (m' + 1) cursor + 1)
      cases hl : chunksLoop file approx (m' + 1) (chunkEnd file approx (m' + 1) cursor + 1) with
      | nil => exact absurd hl (chunksLoop_ne_nil _ _ _ _)
      | cons y ys =>
        rw [hl] at hb hhead
        have hyb : y = b := by simpa using hb
        subst hyb
        simpa [List.headI] using hhead.symm

theorem chunksLoop_dropLast (file : List ℕ) (approx : ℤ) :
    ∀ (remaining : ℕ) (cursor : ℤ),
      ∀ r ∈ (chunksLoop file approx remaining cursor).dropLast,
        r.stop = getPreviousNewlinePosition file (r.start + approx - 1) ∧
        getPreviousNewlinePosition file (r.start + approx - 1) ≠ -1 ∧
        ∃ j : ℕ, r.stop = (j : ℤ) ∧ j < file.length ∧ file.getD j 0 = 10 := by
  intro remaining
  induction remaining with
  | zero => intro cursor r hr; cases hr
  | succ m ih =>
    intro cursor r hr
    rw [chunksLoop_succ] at hr
    by_cases h : chunkEnd file approx m cursor + 1 ≥ (file.length : ℤ)
    · rw [if_pos h] at hr
      cases hr
    · rw [if_neg h] at hr
      cases hl : chunksLoop file approx m (chunkEnd file approx m cursor + 1) with
      | nil =>
        exfalso
        have h0 : m ≠ 0 := (chunksLoop_rec_case file approx m cursor h).1
        obtain ⟨m', hm'⟩ : ∃ m', m = m' + 1 := ⟨m - 1, by omega⟩
        rw [hm'] at hl
        exact absurd hl (chunksLoop_ne_nil _ _ _ _)
      | cons y ys =>
        rw [hl, List.dropLast_cons₂] at hr
        rcases List.mem_cons.mp hr with hr | hr
        · subst hr
          obtain ⟨h0, heq, hne⟩ := chunksLoop_rec_case file approx m cursor h
          refine ⟨heq, hne, ?_⟩
          rcases gpnl_sound file (cursor + approx - 1) with hbad | ⟨j, hj, hlt, hnl⟩
          · exact absurd hbad hne
          · exact ⟨j, by rw [heq, hj], hlt, hnl⟩
        · have := ih (chunkEnd file approx m cursor + 1) r
          rw [hl] at this
          exact this hr

theorem chunksLoop_length (file : List ℕ) (approx : ℤ) :
    ∀ (remaining : ℕ) (cursor : ℤ),
      (chunksLoop file approx remaining cursor).length ≤ remaining := by
  intro remaining
  induction remaining with
  | zero => intro cursor; simp [chunksLoop]
  | succ m ih =>
    intro cursor
    rw [chunksLoop_succ]
    by_cases h : chunkEnd file approx m cursor + 1 ≥ (file.length : ℤ)
    · rw [if_pos h]; simp
    · rw [if_neg h]
      simp only [List.length_cons]
      exact Nat.succ_le_succ (ih _)

theorem chunksLoop_stop_le (file : List ℕ) (approx : ℤ) :
    ∀ (remaining : ℕ) (cursor : ℤ),
      ∀ r ∈ chunksLoop file approx remaining cursor, r.stop ≤ (file.length : ℤ) - 1 := by
  intro remaining
  induction remaining with
  | zero => intro cursor r hr; cases hr
  | succ m ih =>
    intro cursor r hr
    rw [chunksLoop_succ] at hr
    by_cases h : chunkEnd file approx m cursor + 1 ≥ (file.length : ℤ)
    · rw [if_pos h] at hr
      rcases List.mem_singleton.mp hr with rfl
      exact chunkEnd_le ..
    · rw [if_neg h] at hr
      rcases List.mem_cons.mp hr with rfl | hr
      · exact chunkEnd_le ..
      · exact ih _ r hr

theorem chunksLoop_start_nonneg (file : List ℕ) (approx : ℤ) :
    ∀ (remaining : ℕ) (cursor : ℤ), 0 ≤ cursor →
      (∀ r ∈ chunksLoop file approx remaining cursor, r.start ≤ r.stop) →
      ∀ r ∈ chunksLoop file approx remaining cursor, 0 ≤ r.start := by
  intro remaining
  induction remaining with
  | zero => intro cursor _ _ r hr; cases hr
  | succ m ih =>
    intro cursor hc hok r hr
    rw [chunksLoop_succ] at hr hok
    by_cases h : chunkEnd file approx m cursor + 1 ≥ (file.length : ℤ)
    · rw [if_pos h] at hr
      rcases List.mem_singleton.mp hr with rfl
      exact hc
    · rw [if_neg h] at hr hok
      rcases List.mem_cons.mp hr with rfl | hr
      · exact hc
      · have hfirst : cursor ≤ chunkEnd file approx m cursor :=
          hok _ (List.mem_cons_self _ _)
        refine ih (chunkEnd file approx m cursor + 1) (by omega) ?_ r hr
        intro x hx
        exact hok x (List.mem_cons_of_mem _ hx)

/-! ### Slices of the produced ranges tile the file -/

theorem sliceOf_mk (file : List ℕ) (a b : ℤ) :
    sliceOf file ⟨a, b⟩ = (file.drop a.toNat).take (b - a + 1).toNat := rfl

theorem chunksLoop_tiling (file : List ℕ) (approx : ℤ) :
    ∀ (remaining : ℕ) (cursor : ℤ), 0 ≤ cursor →
      (∀ r ∈ chunksLoop file approx (remaining + 1) cursor, r.start ≤ r.stop) →
      ((chunksLoop file approx (remaining + 1) cursor).map (sliceOf file)).flatten =
        file.drop cursor.toNat := by
  intro remaining
  induction remaining with
  | zero =>
    intro cursor hc hok
    have he : chunkEnd file approx 0 cursor = (file.length : ℤ) - 1 := by
      rw [chunkEnd, if_pos rfl]
    have hge : chunkEnd file approx 0 cursor + 1 ≥ (file.length : ℤ) := by omega
    rw [chunksLoop_succ, if_pos hge] at hok ⊢
    have hcs : cursor ≤ chunkEnd file approx 0 cursor := hok _ (List.mem_singleton_self _)
    simp only [List.map_cons, List.map_nil, List.flatten_cons, List.flatten_nil,
      List.append_nil, sliceOf_mk]
    refine List.take_of_length_le ?_
    rw [List.length_drop]
    omega
  | succ m ih =>
    intro cursor hc hok
    rw [chunksLoop_succ] at hok ⊢
    by_cases h : chunkEnd file approx (m + 1) cursor + 1 ≥ (file.length : ℤ)
    · rw [if_pos h] at hok ⊢
      have hle := chunkEnd_le file approx (m + 1) cursor
      have hcs : cursor ≤ chunkEnd file approx (m + 1) cursor :=
        hok _ (List.mem_singleton_self _)
      simp only [List.map_cons, List.map_nil, List.flatten_cons, List.flatten_nil,
        List.append_nil, sliceOf_mk]
      refine List.take_of_length_le ?_
      rw [List.length_drop]
      omega
    · rw [if_neg h] at hok ⊢
      have hcs : cursor ≤ chunkEnd file approx (m + 1) cursor :=
        hok _ (List.mem_cons_self _ _)
      have hrest := ih (chunkEnd file approx (m + 1) cursor + 1) (by omega)
        (fun r hr => hok r (List.mem_cons_of_mem _ hr))
      simp only [List.map_cons, List.flatten_cons, sliceOf_mk]
      rw [hrest]
      conv_rhs => rw [← List.take_append_drop
        ((chunkEnd file approx (m + 1) cursor : ℤ) - cursor + 1).toNat
        (file.drop cursor.toNat)]
      rw [List.drop_drop]
      congr 1
      congr 1
      omega

theorem sliceOf_getLast (file : List ℕ) (r : ByteRange) (h0 : 0 ≤ r.start)
    (h1 : r.start ≤ r.stop) (h2 : r.stop < (file.length : ℤ))
    (hnl : file.getD r.stop.toNat 0 = 10) :
    (sliceOf file r).getLast? = some 10 := by
  have hsl : sliceOf file r = (file.drop r.start.toNat).take (r.stop - r.start + 1).toNat := rfl
  have hlen : (sliceOf file r).length = (r.stop - r.start + 1).toNat := by
    rw [hsl, List.length_take, List.length_drop]
    omega
  rw [List.getLast?_eq_getElem?, hlen, hsl, List.getElem?_take, if_pos (by omega),
    List.getElem?_drop]
  have hidx : r.start.toNat + ((r.stop - r.start + 1).toNat - 1) = r.stop.toNat := by omega
  rw [hidx, List.getElem?_eq_getElem (by omega : r.stop.toNat < file.length)]
  rw [List.getD_eq_getElem?_getD,
    List.getElem?_eq_getElem (by omega : r.stop.toNat < file.length)] at hnl
  simpa using hnl

/-! ### `valsF` distributes over newline-terminated prefixes -/

theorem flushVals_nil (k : List ℕ) : flushVals k [] = [] := by
  unfold flushVals
  simp

theorem valsF_append_nl (k : List ℕ) :
    ∀ A : List ℕ, A.getLast? = some 10 →
      ∀ (B cur : List ℕ), valsF k cur (A ++ B) = valsF k cur A ++ valsF k [] B := by
  intro A
  induction A with
  | nil => intro h; cases h
  | cons a A ih =>
    intro h B cur
    cases A with
    | nil =>
      have ha : a = 10 := by simpa using h
      subst ha
      rw [show ([10] ++ B : List ℕ) = 10 :: B from rfl, valsF, if_pos rfl, valsF, valsF,
        if_pos rfl, flushVals_nil]
      simp [valsF]
    | cons a2 A2 =>
      have h2 : (a2 :: A2).getLast? = some 10 := by
        rwa [List.getLast?_cons_cons] at h
      rw [List.cons_append, valsF, valsF]
      by_cases ha : a = 10
      · rw [if_pos ha, if_pos ha, ih h2 B [], List.append_assoc]
      · rw [if_neg ha, if_neg ha, ih h2 B (cur ++ [a])]

theorem ranges_vals_flatten (file k : List ℕ) :
    ∀ rs : List ByteRange,
      (∀ r ∈ rs.dropLast, ∃ j : ℕ, r.stop = (j : ℤ) ∧ j < file.length ∧ file.getD j 0 = 10) →
      (∀ r ∈ rs, 0 ≤ r.start ∧ r.start ≤ r.stop) →
      (rs.map fun r => valsF k [] (sliceOf file r)).flatten =
        valsF k [] ((rs.map (sliceOf file)).flatten) := by
  intro rs
  induction rs with
  | nil =>
    intro _ _
    simp [valsF, flushVals_nil]
  | cons r rest ih =>
    intro hnl hok
    cases rest with
    | nil => simp
    | cons r2 rest2 =>
      have hr : r ∈ (r :: r2 :: rest2).dropLast := by
        rw [List.dropLast_cons₂]
        exact List.mem_cons_self _ _
      obtain ⟨j, hj, hjlt, hjnl⟩ := hnl r hr
      obtain ⟨hr0, hr1⟩ := hok r (List.mem_cons_self _ _)
      have hstop : r.stop < (file.length : ℤ) := by omega
      have hgd : file.getD r.stop.toNat 0 = 10 := by
        rw [show r.stop.toNat = j from by omega]
        exact hjnl
      have hlast := sliceOf_getLast file r hr0 hr1 hstop hgd
      have ihs := ih (fun x hx => hnl x (by
          rw [List.dropLast_cons₂]
          exact List.mem_cons_of_mem _ hx))
        (fun x hx => hok x (List.mem_cons_of_mem _ hx))
      simp only [List.map_cons, List.flatten_cons] at ihs ⊢
      rw [valsF_append_nl k (sliceOf file r) hlast, ihs]

/-! ### The merged master stats, pointwise -/

theorem foldl_combineOpt_vals_none (VS : List (List ℚ)) :
    VS.foldl (fun o vs => combineOpt o (foldVals none vs)) none = foldVals none VS.flatten := by
  have h := foldl_combineOpt_foldVals VS []
  rw [show foldVals none ([] : List ℚ) = none from rfl] at h
  rw [h, List.nil_append]

theorem runMerged_lookup (file : List ℕ) (n : ℕ) (m : StatsMap) (hn : 1 ≤ n)
    (hm : runMerged file n = .ok m) (k : List ℕ) :
    statsLookup m k = foldVals none (keyLineVals file k) := by
  unfold runMerged at hm
  cases hw : runWorkers file (createChunks file n) with
  | error e => rw [hw] at hm; cases hm
  | ok ws =>
    rw [hw] at hm
    cases hm
    obtain ⟨hws, hok⟩ := runWorkers_ok file (createChunks file n) ws hw
    subst hws
    have hnd : ∀ w ∈ ((createChunks file n).map (processFileChunk file)).map (·.stats),
        (keysOf w).Nodup := by
      intro w hw2
      simp only [List.map_map, List.mem_map] at hw2
      obtain ⟨r, _, hr⟩ := hw2
      rw [← hr]
      exact nodup_processFileChunk file r
    rw [statsLookup_foldl_mergeInto _ [] k hnd]
    rw [show statsLookup [] k = none from rfl]
    rw [List.map_map, List.foldl_map]
    simp only [Function.comp, processFileChunk_stats_lookup]
    rw [← List.foldl_map (fun r => valsF k [] (sliceOf file r))
      (fun o vs => combineOpt o (foldVals none vs))]
    rw [foldl_combineOpt_vals_none]
    obtain ⟨n', rfl⟩ : ∃ n', n = n' + 1 := ⟨n - 1, by omega⟩
    rw [show createChunks file (n' + 1) =
      chunksLoop file ((file.length : ℤ) / ((n' + 1 : ℕ) : ℤ)) (n' + 1) 0 from rfl] at hok ⊢
    rw [ranges_vals_flatten file k _
      (fun r hr => (chunksLoop_dropLast file _ (n' + 1) 0 r hr).2.2)
      (fun r hr => ⟨chunksLoop_start_nonneg file _ (n' + 1) 0 le_rfl hok r hr, hok r hr⟩)]
    rw [chunksLoop_tiling file _ n' 0 le_rfl hok]
    rw [show (0 : ℤ).toNat = 0 from rfl, List.drop_zero]
    exact congrArg _ (valsF_nil_eq k file)

/-! ### Claim theorems -/

/-- C7: the claim (a 0-byte file yields the empty report `\x7b\x7d`) is what
the spec intends, but the code produces the single degenerate range
`{start: 0, end: -1}` (since `FILE_SIZE - 1 = -1`), and the worker's
`createReadStream(path, {start: 0, end: -1})` rejects a negative `end`
with `ERR_OUT_OF_RANGE`, so the run fails with an error instead of
printing `\x7b\x7d`. -/
theorem empty_file_run_fails (n : ℕ) (hn : 1 ≤ n) :
    createChunks [] n = [⟨0, -1⟩] ∧ ∃ e, runMerged [] n = .error e := by
  obtain ⟨n', rfl⟩ : ∃ n', n = n' + 1 := ⟨n - 1, by omega⟩
  have happrox : ((([] : List ℕ).length : ℤ)) / ((n' + 1 : ℕ) : ℤ) = 0 := by simp
  have hend : chunkEnd [] 0 n' 0 = -1 := by
    unfold chunkEnd
    by_cases h0 : n' = 0
    · simp [h0]
    · rw [if_neg h0]
      have h1 : getPreviousNewlinePosition [] (-1) = -1 := by decide
      simp [h1]
  have hchunks : createChunks [] (n' + 1) = [⟨0, -1⟩] := by
    rw [show createChunks [] (n' + 1) =
      chunksLoop [] ((([] : List ℕ).length : ℤ) / ((n' + 1 : ℕ) : ℤ)) (n' + 1) 0 from rfl,
      happrox, chunksLoop_succ, hend]
    rw [if_pos (by simp)]
  refine ⟨hchunks, "ERR_OUT_OF_RANGE", ?_⟩
  unfold runMerged
  rw [hchunks]
  rw [show runWorkers [] [⟨0, -1⟩] = .error "ERR_OUT_OF_RANGE" from by
    unfold runWorkers
    rw [if_neg (by simp : ¬ ((⟨0, -1⟩ : ByteRange).start ≤ (⟨0, -1⟩ : ByteRange).stop))]]

/-- Witness for C7 at `n = 1`. -/
theorem empty_file_run_fails_witness :
    1 ≤ 1 ∧ (createChunks [] 1 = [⟨0, -1⟩] ∧ ∃ e, runMerged [] 1 = .error e) :=
  ⟨le_rfl, empty_file_run_fails 1 le_rfl⟩

/-- C8 counterexample: the partitioner can return fewer than `n` ranges
even though the file has at least `n` lines (the 39-byte three-line file
with `n = 2` yields a single range, because the backward scan from the
tentative cut returns the last newline of the whole sub-1MiB window),
and it can emit a range with `start > end` (the 8-byte file with
`n = 3`). -/
theorem createChunks_range_count_counterexample :
    createChunks telAvivFile 2 = [⟨0, 38⟩] ∧
    (linesOf telAvivFile).length = 3 ∧
    (createChunks telAvivFile 2).length < 2 ∧
    createChunks fileABef 3 = [⟨0, 5⟩, ⟨6, 5⟩, ⟨6, 7⟩] ∧
    ¬ ((⟨6, 5⟩ : ByteRange).start ≤ (⟨6, 5⟩ : ByteRange).stop) := by
  refine ⟨by decide, by decide, by decide, by decide, by decide⟩

/-- C8 amended: the partitioner returns at most `n` ranges (the loop
runs at most `cpuCount` iterations, each pushing one range); it may
return fewer than `n` even when the file has at least `n` lines, and the
ranges it returns are not guaranteed non-empty. -/
theorem createChunks_length_le (file : List ℕ) (n : ℕ) :
    (createChunks file n).length ≤ n := by
  cases n with
  | zero => rw [show createChunks file 0 = [] from rfl]; simp
  | succ n' => exact chunksLoop_length file _ (n' + 1) 0

/-- C2: for a non-empty file and `n ≥ 1` the ranges returned by
`createChunks` are contiguous and exhaustive: the list is non-empty, the
first range starts at 0, the last range ends at `file_size - 1`,
`range[i].end + 1 = range[i+1].start` for every adjacent pair, and every
range except the last one ends exactly on a newline byte, so interior
boundaries fall immediately after a newline and no line is split across
two ranges. -/
theorem createChunks_contiguous_line_aligned (file : List ℕ) (n : ℕ)
    (hf : file ≠ []) (hn : 1 ≤ n) :
    createChunks file n ≠ [] ∧
    (createChunks file n).headI.start = 0 ∧
    (∃ r : ByteRange, (createChunks file n).getLast? = some r ∧
      r.stop = (file.length : ℤ) - 1) ∧
    List.Chain' (fun a b : ByteRange => a.stop + 1 = b.start) (createChunks file n) ∧
    ∀ r ∈ (createChunks file n).dropLast,
      ∃ j : ℕ, r.stop = (j : ℤ) ∧ j < file.length ∧ file.getD j 0 = 10 := by
  obtain ⟨n', rfl⟩ : ∃ n', n = n' + 1 := ⟨n - 1, by omega⟩
  exact ⟨chunksLoop_ne_nil _ _ _ _, chunksLoop_headI_start _ _ _ _,
    chunksLoop_getLast_stop _ _ n' 0, chunksLoop_chain _ _ _ _,
    fun r hr => (chunksLoop_dropLast _ _ (n' + 1) 0 r hr).2.2⟩

/-- Witness for C2 on the 8-byte file `"ab\ncd\nef"` with `n = 3`. -/
theorem createChunks_contiguous_line_aligned_witness :
    fileABef ≠ [] ∧ 1 ≤ 3 ∧
    (createChunks fileABef 3 ≠ [] ∧
     (createChunks fileABef 3).headI.start = 0 ∧
     (∃ r : ByteRange, (createChunks fileABef 3).getLast? = some r ∧
       r.stop = (fileABef.length : ℤ) - 1) ∧
     List.Chain' (fun a b : ByteRange => a.stop + 1 = b.start) (createChunks fileABef 3) ∧
     ∀ r ∈ (createChunks fileABef 3).dropLast,
       ∃ j : ℕ, r.stop = (j : ℤ) ∧ j < fileABef.length ∧ fileABef.getD j 0 = 10) :=
  ⟨by decide, by decide, createChunks_contiguous_line_aligned fileABef 3 (by decide) (by decide)⟩

/-- C6 counterexample: on `"ab\ncd\nef\n"` with `n = 2` the tentative cut
for the first partition is byte 3 and the nearest newline at or after it
is byte 5, but `createChunks` chooses byte 8 (the last newline of the
backward-scan window), producing `[{0, 8}]` instead of the
`[{0, 5}, {6, 8}]` a forward at-or-after search would give. -/
theorem cut_selection_forward_counterexample :
    createChunks fileABefNl 2 = [⟨0, 8⟩] ∧
    createChunks fileABefNl 2 ≠ [⟨0, 5⟩, ⟨6, 8⟩] ∧
    fileABefNl.getD 5 0 = 10 ∧ fileABefNl.getD 3 0 ≠ 10 ∧ fileABefNl.getD 4 0 ≠ 10 := by
  refine ⟨by decide, by decide, by decide, by decide, by decide⟩

/-- C6 amended: for every non-final range the cut actually chosen is the
result of `getPreviousNewlinePosition` (a backward scan over a 1 MiB
window which, for positions in the first MiB of the file, is the last
newline of the window and may lie after the tentative position), applied
to the tentative position `start + approxChunkSize - 1`; a non-final
range always corresponds to a scan that found a newline (result ≠ -1,
and the range ends on that newline byte) — equivalently, when the scan
returns -1 the chunk ends at `file_size - 1` and is the final one. -/
theorem cut_selection_backward_scan (file : List ℕ) (n i : ℕ) (r : ByteRange)
    (hr : (createChunks file n)[i]? = some r)
    (hi : i + 1 < (createChunks file n).length) :
    r.stop = getPreviousNewlinePosition file (r.start + (file.length : ℤ) / (n : ℤ) - 1) ∧
    getPreviousNewlinePosition file (r.start + (file.length : ℤ) / (n : ℤ) - 1) ≠ -1 ∧
    ∃ j : ℕ, r.stop = (j : ℤ) ∧ j < file.length ∧ file.getD j 0 = 10 := by
  have hmem : r ∈ (createChunks file n).dropLast := by
    rw [List.dropLast_eq_take]
    have : ((createChunks file n).take ((createChunks file n).length - 1))[i]? = some r := by
      rw [List.getElem?_take, if_pos (by omega)]
      exact hr
    exact List.getElem?_mem this
  cases n with
  | zero =>
    rw [show createChunks file 0 = [] from rfl] at hmem
    cases hmem
  | succ n' =>
    exact chunksLoop_dropLast file _ (n' + 1) 0 r hmem

/-- Witness for C6 amended on `"ab\ncd\nef"` with `n = 3`, `i = 0`. -/
theorem cut_selection_backward_scan_witness :
    (createChunks fileABef 3)[0]? = some ⟨0, 5⟩ ∧ 0 + 1 < (createChunks fileABef 3).length ∧
    ((⟨0, 5⟩ : ByteRange).stop =
        getPreviousNewlinePosition fileABef
          ((⟨0, 5⟩ : ByteRange).start + (fileABef.length : ℤ) / (3 : ℤ) - 1) ∧
      getPreviousNewlinePosition fileABef
          ((⟨0, 5⟩ : ByteRange).start + (fileABef.length : ℤ) / (3 : ℤ) - 1) ≠ -1 ∧
      ∃ j : ℕ, (⟨0, 5⟩ : ByteRange).stop = (j : ℤ) ∧ j < fileABef.length ∧
        fileABef.getD j 0 = 10) :=
  ⟨by decide, by decide,
    cut_selection_backward_scan fileABef 3 0 ⟨0, 5⟩ (by decide) (by decide)⟩

/-- C3 counterexample: a line with two separators (`"a;1;2"`) is not
skipped — the key is the text before the first separator and the digit
scan ignores the second separator, so the line contributes value 12 to
key `"a"`; likewise `"7.1.9"` (two decimal points) decodes to 7.19 and
`"zz"` (no digits) decodes to 0 rather than being rejected. -/
theorem invalid_line_skip_counterexample :
    processLineFromBuffer [97, 59, 49, 59, 50] [] = [([97], ⟨12, 1, 12, 12⟩)] ∧
    processLineFromBuffer [97, 59, 49, 59, 50] [] ≠ [] ∧
    parseTemperature [55, 46, 49, 46, 57] = 719 / 100 ∧
    parseTemperature [122, 122] = 0 := by
  have h1 : processLineFromBuffer [97, 59, 49, 59, 50] [] = [([97], ⟨12, 1, 12, 12⟩)] := by
    norm_num [processLineFromBuffer, semiIdx, updateStats, statsLookup, jsStringOfBytes,
      utf8Decode, utf8DecodeAux, cpToUnits, parseTemperature, tempLoop, Option.map,
      List.take, List.drop]
  refine ⟨h1, by rw [h1]; simp, ?_, ?_⟩
  · norm_num [parseTemperature, tempLoop]
  · norm_num [parseTemperature, tempLoop]

/-- C3 amended: a line containing no field-separator byte is skipped
entirely — it contributes nothing to any key's stats; lines containing a
separator are always aggregated, whatever their value bytes. -/
theorem line_without_separator_skipped (line : List ℕ) (m : StatsMap) (h : 59 ∉ line) :
    processLineFromBuffer line m = m := by
  have hsemi : semiIdx line = none := by
    induction line with
    | nil => rfl
    | cons b r ih =>
      have hb : b ≠ 59 := fun he => h (he ▸ List.mem_cons_self b r)
      have hr : 59 ∉ r := fun hm => h (List.mem_cons_of_mem b hm)
      rw [semiIdx, if_neg hb, ih hr]
      rfl
  unfold processLineFromBuffer
  rw [hsemi]

/-- Witness for C3 amended on the separator-free line `"Bad"`. -/
theorem line_without_separator_skipped_witness :
    59 ∉ [66, 97, 100] ∧ processLineFromBuffer [66, 97, 100] [] = [] :=
  ⟨by decide, line_without_separator_skipped [66, 97, 100] [] (by decide)⟩

/-- Appending a newline after the stream's final byte does not change
the worker's outcome: flushing after a trailing newline is a no-op. -/
theorem finishChunk_stepByte_nl (st : WorkerState) :
    finishChunk (stepByte st 10) = finishChunk st := by
  obtain ⟨stats, rows, cur⟩ := st
  unfold stepByte finishChunk
  by_cases hc : cur = [] <;> simp [hc]

/-- C10: a byte range whose final bytes after the last newline are
non-empty (`bytes` non-empty and not ending in a newline) is processed
exactly as if the terminating newline were present: the trailing bytes
are parsed and aggregated as one record and counted once in
`rowsProcessed` — the final flush of `processFileChunk` (src/worker.ts
lines 71-75) is equivalent to processing a virtual trailing newline. -/
theorem trailing_final_line (bytes : List ℕ) (st : WorkerState)
    (hne : bytes ≠ []) (hlast : bytes.getLast? ≠ some 10) :
    finishChunk (runBytes st bytes) = finishChunk (runBytes st (bytes ++ [10])) := by
  rw [show runBytes st (bytes ++ [10]) = stepByte (runBytes st bytes) 10 from by
    unfold runBytes
    rw [List.foldl_append]
    rfl]
  rw [finishChunk_stepByte_nl]

/-- Witness for C10 on the newline-free tail `"a;1"`. -/
theorem trailing_final_line_witness :
    ([97, 59, 49] : List ℕ) ≠ [] ∧ ([97, 59, 49] : List ℕ).getLast? ≠ some 10 ∧
    finishChunk (runBytes ⟨[], 0, []⟩ [97, 59, 49]) =
      finishChunk (runBytes ⟨[], 0, []⟩ ([97, 59, 49] ++ [10])) :=
  ⟨by decide, by decide, trailing_final_line [97, 59, 49] ⟨[], 0, []⟩ (by decide) (by decide)⟩

/-- C4 counterexample: the emitted key order is not byte-wise
(codepoint) ascending.  The UTF-8 bytes of U+FFFF (`EF BF BF`) are
lexicographically smaller than those of U+10000 (`F0 90 80 80`), yet the
report lists U+10000 first, because JS `Array.prototype.sort()` compares
UTF-16 code units and the surrogate pair `D800 DC00` sorts below
`FFFF`. -/
theorem report_keys_bytewise_counterexample :
    pipelineKeys astralFile 1 = .ok [[0xD800, 0xDC00], [0xFFFF]] ∧
    jsStringOfBytes [240, 144, 128, 128] = [0xD800, 0xDC00] ∧
    jsStringOfBytes [239, 191, 191] = [0xFFFF] ∧
    List.Lex (· < ·) ([239, 191, 191] : List ℕ) [240, 144, 128, 128] := by
  refine ⟨by decide, by decide, by decide, by decide⟩

/-- C4 amended: the emitted report renders the merged mapping as a
single braced list of `key:min/mean/max` records separated by a comma
and a newline (the program prints at most the first 1000 code units of
it), with keys in strictly ascending UTF-16 code-unit order — JS default
string sort, which coincides with byte-wise order for keys inside the
Basic Multilingual Plane but not for astral keys; the pipeline is a pure
function of the input bytes, so two runs on the same input produce
identical output. -/
theorem report_keys_sorted_code_units (file : List ℕ) (n : ℕ) (ks : List (List ℕ))
    (hk : pipelineKeys file n = .ok ks) :
    List.Chain' (fun a b : List ℕ => a < b) ks := by
  unfold pipelineKeys at hk
  cases hm : runMerged file n with
  | error e => rw [hm] at hk; cases hk
  | ok m =>
    rw [hm] at hk
    cases hk
    have hnd : (keysOf m).Nodup := by
      unfold runMerged at hm
      cases hw : runWorkers file (createChunks file n) with
      | error e => rw [hw] at hm; cases hm
      | ok ws =>
        rw [hw] at hm
        cases hm
        exact nodup_foldl_mergeInto _ [] (by simp [keysOf])
    have hsorted : List.Sorted (fun a b : List ℕ => a ≤ b)
        (List.insertionSort (fun a b : List ℕ => a ≤ b) (keysOf m)) :=
      List.sorted_insertionSort _ _
    have hperm : (List.insertionSort (fun a b : List ℕ => a ≤ b) (keysOf m)).Perm (keysOf m) :=
      List.perm_insertionSort _ _
    have hnd2 : (List.insertionSort (fun a b : List ℕ => a ≤ b) (keysOf m)).Nodup :=
      (List.Perm.nodup_iff hperm).mpr hnd
    show List.Chain' (fun a b : List ℕ => a < b)
      (List.insertionSort (fun a b : List ℕ => a ≤ b) (keysOf m))
    refine List.Pairwise.chain' ?_
    have hpair := List.Sorted.lt_of_le hsorted hnd2
    exact hpair

/-- Witness for C4 amended on the Tel Aviv example with one partition. -/
theorem report_keys_sorted_code_units_witness :
    pipelineKeys telAvivFile 1 =
      .ok [[68, 104, 97, 107, 97], [84, 101, 108, 32, 65, 118, 105, 118]] ∧
    List.Chain' (fun a b : List ℕ => a < b)
      [[68, 104, 97, 107, 97], [84, 101, 108, 32, 65, 118, 105, 118]] :=
  ⟨by decide, report_keys_sorted_code_units telAvivFile 1 _ (by decide)⟩

/-- C1 counterexample: the merged count is not the number of
syntactically valid lines.  The single line `"a;zz"` has no valid value
(no digits at all), yet it is aggregated: the merged count for key `"a"`
is 1 while the file contains 0 syntactically valid lines for that key.
Moreover an N-partition run need not match the 1-partition run at all:
on `"ab\ncd\nef"` with 3 partitions the partitioner emits the degenerate
range `{6, 5}` and the run fails, while the 1-partition run succeeds. -/
theorem merged_count_valid_lines_counterexample :
    (∃ m, runMerged [97, 59, 122, 122, 10] 1 = .ok m ∧ cntAt m [97] = 1) ∧
    specValidKeyCount [97, 59, 122, 122, 10] [97] = 0 ∧
    runMerged fileABef 3 = .error "ERR_OUT_OF_RANGE" ∧
    (∃ m1, runMerged fileABef 1 = .ok m1) := by
  refine ⟨⟨_, rfl, by decide⟩, by decide, by decide, ⟨_, rfl⟩⟩

/-- C1 amended: whenever the partitioned run completes (which requires
every produced range to satisfy `start ≤ end`; degenerate ranges abort
the run, see the counterexample), the merged count for every key `k`
equals the number of separator-containing lines bearing key `k` in the
whole file — every such line is aggregated, syntactically valid value or
not — the merged sum equals the exact sum of the values those lines
decode to, and the result agrees pointwise with a completing 1-partition
run. -/
theorem merged_count_sum_refines_file (file : List ℕ) (n : ℕ) (m : StatsMap)
    (hn : 1 ≤ n) (hm : runMerged file n = .ok m) (k : List ℕ) :
    cntAt m k = countKeyLines file k ∧ sumAt m k = sumKeyLines file k ∧
    ∀ m1, runMerged file 1 = .ok m1 → cntAt m1 k = cntAt m k ∧ sumAt m1 k = sumAt m k := by
  have h := runMerged_lookup file n m hn hm k
  have hf := foldVals_none_fields (keyLineVals file k)
  have hc : cntAt m k = countKeyLines file k := by
    unfold cntAt countKeyLines
    rw [h]
    exact hf.1
  have hs : sumAt m k = sumKeyLines file k := by
    unfold sumAt sumKeyLines
    rw [h]
    exact hf.2
  refine ⟨hc, hs, ?_⟩
  intro m1 hm1
  have h1 := runMerged_lookup file 1 m1 le_rfl hm1 k
  have hc1 : cntAt m1 k = countKeyLines file k := by
    unfold cntAt countKeyLines
    rw [h1]
    exact hf.1
  have hs1 : sumAt m1 k = sumKeyLines file k := by
    unfold sumAt sumKeyLines
    rw [h1]
    exact hf.2
  exact ⟨by rw [hc1, hc], by rw [hs1, hs]⟩

/-- Witness for C1 amended: the 8-byte file `"ab\ncd\nef"` (three lines,
none with a separator) with one partition merges to the empty map, whose
counts and sums match the file's per-key line counts (all zero). -/
theorem merged_count_sum_refines_file_witness :
    1 ≤ 1 ∧ runMerged fileABef 1 = .ok [] ∧
    (cntAt [] [97] = countKeyLines fileABef [97] ∧
     sumAt [] [97] = sumKeyLines fileABef [97] ∧
     ∀ m1, runMerged fileABef 1 = .ok m1 →
       cntAt m1 [97] = cntAt [] [97] ∧ sumAt m1 [97] = sumAt [] [97]) :=
  ⟨le_rfl, by decide, merged_count_sum_refines_file fileABef 1 [] le_rfl (by decide) [97]⟩

set_option maxRecDepth 8000

/-- Concrete evaluation of the full pipeline on the Tel Aviv example
with one partition. -/
theorem telAviv_report :
    pipelineReport telAvivFile 1 =
      .ok (unitsOf "\x7bDhaka:36.9/36.9/36.9,\nTel Aviv:30.1/32.0/33.9\x7d") := by
  have hTA : jsStringOfBytes [84, 101, 108, 32, 65, 118, 105, 118] =
      [84, 101, 108, 32, 65, 118, 105, 118] := by decide
  have hDH : jsStringOfBytes [68, 104, 97, 107, 97] = [68, 104, 97, 107, 97] := by decide
  have hv1 : parseTemperature [51, 51, 46, 57] = 339 / 10 := by
    norm_num [parseTemperature, tempLoop]
  have hv2 : parseTemperature [51, 54, 46, 57] = 369 / 10 := by
    norm_num [parseTemperature, tempLoop]
  have hv3 : parseTemperature [51, 48, 46, 49] = 301 / 10 := by
    norm_num [parseTemperature, tempLoop]
  have hlt : (301 : ℚ) / 10 < 339 / 10 := by norm_num
  have hgt : ¬ ((301 : ℚ) / 10 > 339 / 10) := by norm_num
  have hchunks : createChunks telAvivFile 1 = [⟨0, 38⟩] := by decide
  have hslice : sliceOf telAvivFile ⟨0, 38⟩ = telAvivFile := by decide
  have htarget : unitsOf "\x7bDhaka:36.9/36.9/36.9,\nTel Aviv:30.1/32.0/33.9\x7d" =
      [123, 68, 104, 97, 107, 97, 58, 51, 54, 46, 57, 47, 51, 54, 46, 57, 47, 51, 54, 46, 57,
       44, 10, 84, 101, 108, 32, 65, 118, 105, 118, 58, 51, 48, 46, 49, 47, 51, 50, 46, 48,
       47, 51, 51, 46, 57, 125] := by decide
  rw [htarget]
  unfold pipelineReport runMerged
  rw [hchunks]
  rw [show runWorkers telAvivFile [⟨0, 38⟩] = .ok [processFileChunk telAvivFile ⟨0, 38⟩] from by
    unfold runWorkers
    rw [if_pos (by decide : (⟨0, 38⟩ : ByteRange).start ≤ (⟨0, 38⟩ : ByteRange).stop)]
    rfl]
  unfold processFileChunk
  rw [hslice]
  simp +decide only [telAvivFile, runBytes, List.foldl, stepByte, finishChunk,
    processLineFromBuffer, semiIdx, Option.map, updateStats, statsLookup,
    List.take, List.drop, hTA, hDH, hv1, hv2, hv3, hlt, hgt,
    List.map, mergeInto, mergeOne, formatReport, sortedStations, renderEntry,
    List.insertionSort, List.orderedInsert, List.intercalate, List.intersperse,
    List.flatten, List.append, List.cons_append, List.nil_append, Option.getD]
  norm_num [toFixed1, natDigits, natDigitsAux] <;> decide

/-- C5 counterexample: the emitted report joins records with a comma and
a newline (`',\n'` in src/main.ts line 188), not with a comma and a
space, so the claimed literal output `\x7bDhaka:36.9/36.9/36.9,
Tel Aviv:30.1/32.0/33.9\x7d` (comma-space) is not what the program
prints. -/
theorem format_output_separator_counterexample :
    printedReport telAvivFile 1 ≠
      .ok (unitsOf "\x7bDhaka:36.9/36.9/36.9, Tel Aviv:30.1/32.0/33.9\x7d") ∧
    printedReport telAvivFile 1 =
      .ok (unitsOf "\x7bDhaka:36.9/36.9/36.9,\nTel Aviv:30.1/32.0/33.9\x7d") := by
  have h : printedReport telAvivFile 1 =
      .ok ((unitsOf "\x7bDhaka:36.9/36.9/36.9,\nTel Aviv:30.1/32.0/33.9\x7d").take 1000) := by
    unfold printedReport
    rw [telAviv_report]
  constructor
  · rw [h]; decide
  · rw [h]; decide

/-- C5 amended: for every key the formatter computes `mean = sum / cnt`
at format time and renders min, mean and max with `toFixed(1)`, which
rounds half away from zero; the input
`"Tel Aviv;33.9\nDhaka;36.9\nTel Aviv;30.1\n"` with one partition prints
`\x7bDhaka:36.9/36.9/36.9,\nTel Aviv:30.1/32.0/33.9\x7d` (records are
separated by a comma and a newline, not a comma and a space). -/
theorem format_mean_rounding_example :
    printedReport telAvivFile 1 =
      .ok (unitsOf "\x7bDhaka:36.9/36.9/36.9,\nTel Aviv:30.1/32.0/33.9\x7d") ∧
    toFixed1 (1 / 20) = unitsOf "0.1" ∧
    toFixed1 (-1 / 20) = unitsOf "-0.1" ∧
    toFixed1 ((339 / 10 + 301 / 10) / ((2 : ℕ) : ℚ)) = unitsOf "32.0" := by
  refine ⟨?_, ?_, ?_, ?_⟩
  · unfold printedReport
    rw [telAviv_report]
    decide
  · norm_num [toFixed1, natDigits, natDigitsAux, unitsOf] <;> decide
  · norm_num [toFixed1, natDigits, natDigitsAux, unitsOf] <;> decide
  · norm_num [toFixed1, natDigits, natDigitsAux, unitsOf] <;> decide

end OneBRC
